import Mathlib

/-!
Verification of the `Context` store from `dialogflow_fulfillment/contexts.py`.

The Python class keeps context records as mutable dictionaries that are
shared by reference between `self.input_contexts`, `self.contexts` and any
list produced by iteration.  To model this aliasing faithfully we use an
explicit heap: records live in a list `heap`, and both name-indexed mappings
store natural-number references into that heap.  Python `dict`s preserve
insertion order and an assignment to an existing key keeps the key's
original position, which the association-list operations below reproduce.
-/

namespace DF

/-- Model of a context's `parameters` payload: a mapping of string keys to
(opaque, here string-valued) values. The code treats it as an opaque dict. -/
abbrev Params := List (String × String)

/-- A context record: the Python dict with keys `name`, `lifespanCount`,
`parameters`, where the latter two may be absent (`none`). -/
structure ContextRec where
  name : String
  lifespanCount : Option Int
  parameters : Option Params
  deriving DecidableEq

/-- A Python value passed as the `name` argument of `set`; only `str` passes
the `isinstance(name, str)` check. -/
inductive PyName where
  | str (s : String)
  | intVal (n : Int)
  | noneVal
  | boolVal (b : Bool)
  deriving DecidableEq

/-- Lookup in an insertion-ordered association list (Python `dict` lookup:
first — and, keys being unique, only — entry with the key). -/
def assocGet {α : Type} : List (String × α) → String → Option α
  | [], _ => none
  | (k, v) :: rest, n => if k = n then some v else assocGet rest n

/-- Python `d[k] = v`: overwrite in place if the key exists (keeping its
position), otherwise append at the end. -/
def assocSet {α : Type} : List (String × α) → String → α → List (String × α)
  | [], n, r => [(n, r)]
  | (k, v) :: rest, n, r =>
      if k = n then (n, r) :: rest else (k, v) :: assocSet rest n r

/-- Heap reference: index of a record object in the heap. -/
abbrev Ref := Nat

/-- The record returned for a dangling reference (never hit on well-formed
stores). -/
def blankRec : ContextRec := { name := "", lifespanCount := none, parameters := none }

/-- Dereference a heap cell. -/
def heapGet (h : List ContextRec) (r : Ref) : ContextRec := h.getD r blankRec

/-- Mutate the record object at reference `r` in place. -/
def heapMod : List ContextRec → Ref → (ContextRec → ContextRec) → List ContextRec
  | [], _, _ => []
  | c :: rest, 0, f => f c :: rest
  | c :: rest, r + 1, f => c :: heapMod rest r f

/-- Characters after the last `/` of a string, accumulator-style:
models Python `name.rsplit('/', 1)[-1]`. -/
def lastSegAux : List Char → List Char → List Char
  | [], acc => acc.reverse
  | c :: rest, acc => if c = '/' then lastSegAux rest [] else lastSegAux rest (c :: acc)

/-- Model of `name.rsplit('/', 1)[-1]`: the final path segment (the whole string when
it contains no slash). -/
def shortName (s : String) : String := String.mk (lastSegAux s.data [])

/-- The state of a `Context` object.  `heap` holds the record objects;
`input_contexts` and `contexts` map canonical names to references into it
(`self.contexts = {**self.input_contexts}` copies the mapping but shares the
record objects, i.e. the references).  `itIndex` and `itArray` are the
iterator attributes `self._index` and `self._context_array`. -/
structure ContextStore where
  heap : List ContextRec
  input_contexts : List (String × Ref)
  contexts : List (String × Ref)
  session : String
  itIndex : Nat
  itArray : List Ref
  deriving DecidableEq

/-- The loop of `_process_input_contexts`: normalize each record's name to
its final path segment (mutating the record, here: the heap cell `i` holds
the normalized record) and key it under the short name. -/
def procAux : List ContextRec → Nat → List (String × Ref) → List (String × Ref)
  | [], _, acc => acc
  | c :: rest, i, acc => procAux rest (i + 1) (assocSet acc (shortName c.name) i)

/-- Constructor `Context.__init__`: process the input contexts (allocating one heap cell
per inbound record, holding the name-normalized record) and copy the mapping
into `contexts`, sharing the record objects. -/
def ContextStore.build (input : List ContextRec) (session : String) : ContextStore :=
  let ic := procAux input 0 []
  { heap := input.map (fun c => { c with name := shortName c.name })
    input_contexts := ic
    contexts := ic
    session := session
    itIndex := 0
    itArray := [] }

/-- Method `Context.set`.  Returns the raised error message (Python `TypeError`,
the spec's `InvalidArgument`), if any, together with the state of the object
after the call. -/
def ContextStore.set (st : ContextStore) (name : PyName)
    (lifespan_count : Option Int) (parameters : Option Params) :
    Option String × ContextStore :=
  match name with
  | PyName.str n =>
      let pre : ContextStore × Ref :=
        match assocGet st.contexts n with
        | some r => (st, r)
        | none =>
            ({ st with
                heap := st.heap ++ [{ name := n, lifespanCount := none, parameters := none }]
                contexts := assocSet st.contexts n st.heap.length },
              st.heap.length)
      let st1 := pre.1
      let r := pre.2
      let st2 :=
        match lifespan_count with
        | some l => { st1 with heap := heapMod st1.heap r (fun c => { c with lifespanCount := some l }) }
        | none => st1
      let st3 :=
        match parameters with
        | some p => { st2 with heap := heapMod st2.heap r (fun c => { c with parameters := some p }) }
        | none => st2
      (none, st3)
  | _ => (some "name argument must be a string", st)

/-- Method `Context.get`: the current value of the record object for `name`, or
`none` (Python `None`) if absent. -/
def ContextStore.get (st : ContextStore) (name : String) : Option ContextRec :=
  (assocGet st.contexts name).map (heapGet st.heap)

/-- Method `Context.delete`: literally `self.set(name, lifespan_count=0)`. -/
def ContextStore.delete (st : ContextStore) (name : PyName) :
    Option String × ContextStore :=
  st.set name (some 0) none

/-- Method `Context.__iter__`: reset the cursor and snapshot the record objects
(references) of `self.contexts` in insertion order. -/
def ContextStore.iterStart (st : ContextStore) : ContextStore :=
  { st with itIndex := 0, itArray := st.contexts.map Prod.snd }

/-- Method `Context.__next__`: yield the record object (reference) at the cursor,
or `none` for `StopIteration`. -/
def ContextStore.iterNext (st : ContextStore) : Option Ref × ContextStore :=
  if h : st.itIndex < st.itArray.length then
    (some (st.itArray.get ⟨st.itIndex, h⟩), { st with itIndex := st.itIndex + 1 })
  else
    (none, st)

/-- Repeatedly call `__next__` until `StopIteration`, collecting the yielded
record objects; the fuel is an upper bound on the remaining steps. -/
def drainAux : Nat → ContextStore → List Ref × ContextStore
  | 0, st => ([], st)
  | fuel + 1, st =>
      match st.iterNext with
      | (none, st1) => ([], st1)
      | (some r, st1) =>
          let p := drainAux fuel st1
          (r :: p.1, p.2)

/-- Exhaust the iterator from its current cursor position. -/
def ContextStore.drain (st : ContextStore) : List Ref × ContextStore :=
  drainAux (st.itArray.length - st.itIndex) st

/-- The name rewrite of emission: `f"{session}/contexts/{name}"`. -/
def qualify (session : String) (c : ContextRec) : ContextRec :=
  { c with name := session ++ "/contexts/" ++ c.name }

/-- The `for context in output_contexts` loop of emission: mutate each
listed record object's `name` in place, one object at a time. -/
def qualifyFold (s : String) (refs : List Ref) (h : List ContextRec) : List ContextRec :=
  refs.foldl (fun h r => heapMod h r (qualify s)) h

/-- Method `Context.get_output_contexts_array`: `[*self]` (which runs the iterator
protocol), then mutate each listed record object's `name` in place, and
return the list of (now mutated) objects. -/
def ContextStore.get_output_contexts_array (st : ContextStore) :
    List ContextRec × ContextStore :=
  let p := (st.iterStart).drain
  let refs := p.1
  let st1 := p.2
  let heap1 := qualifyFold st.session refs st1.heap
  (refs.map (heapGet heap1), { st1 with heap := heap1 })

/-- The pre-mutation snapshot as seen through `self.input_contexts`: each
retained name together with the current value of the record object it
references. -/
def ContextStore.inputSnapshot (st : ContextStore) : List (String × ContextRec) :=
  st.input_contexts.map (fun p => (p.1, heapGet st.heap p.2))

/-- Well-formedness of a store state: references are live, names and record
objects in the live mapping are distinct, and the snapshot mapping shares
its entries with the live mapping (as after construction). -/
def WF (st : ContextStore) : Prop :=
  (∀ p ∈ st.contexts, p.2 < st.heap.length) ∧
  (st.contexts.map Prod.fst).Nodup ∧
  (st.contexts.map Prod.snd).Nodup ∧
  (∀ p ∈ st.input_contexts, p ∈ st.contexts)

/-- The canonical-name invariant: every key of the live mapping equals the
`name` field of the record it maps to. -/
def canonNames (st : ContextStore) : Prop :=
  ∀ p ∈ st.contexts, (heapGet st.heap p.2).name = p.1

instance (st : ContextStore) : Decidable (WF st) := by
  unfold WF; infer_instance

instance (st : ContextStore) : Decidable (canonNames st) := by
  unfold canonNames; infer_instance

/-! ### Concrete stores used to instantiate the theorems -/

/-- A store holding one fully-qualified inbound context. -/
def ex1 : ContextStore :=
  ContextStore.build
    [{ name := "projects/p/agent/sessions/s1/contexts/awaiting-confirmation",
       lifespanCount := some 1, parameters := none }]
    "projects/p/agent/sessions/s1"

/-- Two inbound records whose names share the final path segment `x`. -/
def ex2input : List ContextRec :=
  [{ name := "a/x", lifespanCount := some 1, parameters := none },
   { name := "b/x", lifespanCount := some 2, parameters := none }]

/-- The store built from `ex2input`. -/
def ex2 : ContextStore := ContextStore.build ex2input "s"

/-- A store with one record that has both a lifespan and parameters. -/
def ex3 : ContextStore :=
  ContextStore.build
    [{ name := "s/x", lifespanCount := some 7, parameters := some [("a", "1")] }]
    "s"

/-- A store with two inbound contexts `A` and `B`. -/
def exAB : ContextStore :=
  ContextStore.build
    [{ name := "A", lifespanCount := none, parameters := none },
     { name := "B", lifespanCount := none, parameters := none }]
    "s"

/-- Store `exAB` after `set("C", lifespan_count=5)`. -/
def exABC : ContextStore := (exAB.set (PyName.str "C") (some 5) none).2

/-- A store with one inbound context `x` of lifespan 2. -/
def ex7 : ContextStore :=
  ContextStore.build [{ name := "s/x", lifespanCount := some 2, parameters := none }] "s"

/-- Store `ex7` after `set("x", lifespan_count=5)`. -/
def ex7set : ContextStore := (ex7.set (PyName.str "x") (some 5) none).2

/-! ### Association-list lemmas -/

theorem assocGet_set_self {α : Type} (l : List (String × α)) (k : String) (v : α) :
    assocGet (assocSet l k v) k = some v := by
  induction l with
  | nil => simp [assocSet, assocGet]
  | cons p rest ih =>
      obtain ⟨pk, pv⟩ := p
      by_cases h : pk = k
      · simp [assocSet, assocGet, h]
      · simpa [assocSet, assocGet, h] using ih

theorem assocGet_set_ne {α : Type} (l : List (String × α)) (k k' : String) (v : α)
    (h : k' ≠ k) : assocGet (assocSet l k v) k' = assocGet l k' := by
  have hkk : ¬ k = k' := fun e => h e.symm
  induction l with
  | nil => simp [assocSet, assocGet, hkk]
  | cons p rest ih =>
      obtain ⟨pk, pv⟩ := p
      by_cases hp : pk = k
      · subst hp
        simp [assocSet, assocGet, hkk]
      · simp [assocSet, assocGet, hp, ih]

theorem assocGet_eq_none_iff {α : Type} (l : List (String × α)) (k : String) :
    assocGet l k = none ↔ k ∉ l.map Prod.fst := by
  induction l with
  | nil => simp [assocGet]
  | cons p rest ih =>
      obtain ⟨pk, pv⟩ := p
      by_cases h : pk = k
      · simp [assocGet, h]
      · have hk : ¬ k = pk := fun e => h e.symm
        simp only [assocGet, if_neg h, ih, List.map_cons, List.mem_cons]
        constructor
        · intro hm hor
          rcases hor with hor | hor
          · exact hk hor
          · exact hm hor
        · intro hm hmem
          exact hm (Or.inr hmem)

theorem assocGet_mem {α : Type} (l : List (String × α)) (k : String) (v : α)
    (h : assocGet l k = some v) : (k, v) ∈ l := by
  induction l with
  | nil => simp [assocGet] at h
  | cons p rest ih =>
      obtain ⟨pk, pv⟩ := p
      by_cases hp : pk = k
      · subst hp
        simp [assocGet] at h
        subst h
        exact List.mem_cons_self _ _
      · simp only [assocGet, if_neg hp] at h
        exact List.mem_cons_of_mem _ (ih h)

theorem assocSet_of_notMem {α : Type} (l : List (String × α)) (k : String) (v : α)
    (h : k ∉ l.map Prod.fst) : assocSet l k v = l ++ [(k, v)] := by
  induction l with
  | nil => simp [assocSet]
  | cons p rest ih =>
      obtain ⟨pk, pv⟩ := p
      simp only [List.map_cons, List.mem_cons] at h
      push_neg at h
      have hne : ¬ pk = k := fun e => h.1 e.symm
      simp [assocSet, hne, ih h.2]

theorem keys_assocSet_of_mem {α : Type} (l : List (String × α)) (k : String) (v : α)
    (h : k ∈ l.map Prod.fst) : (assocSet l k v).map Prod.fst = l.map Prod.fst := by
  induction l with
  | nil => simp at h
  | cons p rest ih =>
      obtain ⟨pk, pv⟩ := p
      by_cases hp : pk = k
      · simp [assocSet, hp]
      · simp only [List.map_cons, List.mem_cons] at h
        rcases h with h | h
        · exact absurd h.symm hp
        · simp [assocSet, hp, ih h]

theorem mem_assocSet {α : Type} (l : List (String × α)) (k : String) (v : α)
    (p : String × α) (h : p ∈ assocSet l k v) : p = (k, v) ∨ p ∈ l := by
  induction l with
  | nil => simpa [assocSet] using h
  | cons q rest ih =>
      obtain ⟨qk, qv⟩ := q
      by_cases hq : qk = k
      · simp only [assocSet, if_pos hq] at h
        rcases List.mem_cons.mp h with h | h
        · exact Or.inl h
        · exact Or.inr (List.mem_cons_of_mem _ h)
      · simp only [assocSet, if_neg hq] at h
        rcases List.mem_cons.mp h with h | h
        · exact Or.inr (by simp [h])
        · rcases ih h with h | h
          · exact Or.inl h
          · exact Or.inr (List.mem_cons_of_mem _ h)

theorem mem_assocSet_of_mem {α : Type} (l : List (String × α)) (k : String) (v : α)
    (p : String × α) (hp : p ∈ l) (hk : p.1 ≠ k) : p ∈ assocSet l k v := by
  induction l with
  | nil => simp at hp
  | cons q rest ih =>
      obtain ⟨qk, qv⟩ := q
      rcases List.mem_cons.mp hp with h | h
      · subst h
        simp only at hk
        simp [assocSet, hk]
      · by_cases hq : qk = k
        · simp only [assocSet, if_pos hq]
          exact List.mem_cons_of_mem _ h
        · simp only [assocSet, if_neg hq]
          exact List.mem_cons_of_mem _ (ih h)

/-! ### Heap lemmas -/

theorem length_heapMod (h : List ContextRec) (r : Ref) (f : ContextRec → ContextRec) :
    (heapMod h r f).length = h.length := by
  induction h generalizing r with
  | nil => simp [heapMod]
  | cons c rest ih =>
      cases r with
      | zero => simp [heapMod]
      | succ r => simp [heapMod, ih]

theorem heapGet_heapMod_self (h : List ContextRec) (r : Ref) (f : ContextRec → ContextRec)
    (hr : r < h.length) : heapGet (heapMod h r f) r = f (heapGet h r) := by
  induction h generalizing r with
  | nil => simp at hr
  | cons c rest ih =>
      cases r with
      | zero => simp [heapMod, heapGet]
      | succ r =>
          simp only [heapMod, heapGet, List.getD_cons_succ]
          exact ih r (by simpa using hr)

theorem heapGet_heapMod_ne (h : List ContextRec) (r r' : Ref) (f : ContextRec → ContextRec)
    (hne : r' ≠ r) : heapGet (heapMod h r f) r' = heapGet h r' := by
  induction h generalizing r r' with
  | nil => simp [heapMod]
  | cons c rest ih =>
      cases r with
      | zero =>
          cases r' with
          | zero => exact absurd rfl hne
          | succ r' => simp [heapMod, heapGet]
      | succ r =>
          cases r' with
          | zero => simp [heapMod, heapGet]
          | succ r' =>
              simp only [heapMod, heapGet, List.getD_cons_succ]
              exact ih r r' (fun e => hne (by simp [e]))

theorem heapGet_append_lt (h h2 : List ContextRec) (r : Ref) (hr : r < h.length) :
    heapGet (h ++ h2) r = heapGet h r := by
  simp [heapGet, List.getD_eq_getElem?_getD, List.getElem?_append, hr]

theorem heapGet_append_len (h : List ContextRec) (c : ContextRec) :
    heapGet (h ++ [c]) h.length = c := by
  simp [heapGet, List.getD_eq_getElem?_getD, List.getElem?_append_right (Nat.le_refl _)]

theorem heapGet_map (input : List ContextRec) (f : ContextRec → ContextRec) (i : Nat)
    (hi : i < input.length) :
    heapGet (input.map f) i = f input[i] := by
  simp [heapGet, List.getD_eq_getElem?_getD, List.getElem?_map,
    List.getElem?_eq_getElem hi]

/-! ### Iterator lemmas -/

theorem drainAux_spec (fuel : Nat) (st : ContextStore)
    (hf : st.itArray.length - st.itIndex = fuel) :
    drainAux fuel st = (st.itArray.drop st.itIndex, { st with itIndex := st.itIndex + fuel }) := by
  induction fuel generalizing st with
  | zero =>
      have : st.itArray.length ≤ st.itIndex := Nat.le_of_sub_eq_zero hf
      simp [drainAux, List.drop_eq_nil_of_le this]
  | succ fuel ih =>
      have hlt : st.itIndex < st.itArray.length := by omega
      have hnext : st.iterNext =
          (some (st.itArray.get ⟨st.itIndex, hlt⟩), { st with itIndex := st.itIndex + 1 }) := by
        simp [ContextStore.iterNext, hlt]
      have hrec := ih { st with itIndex := st.itIndex + 1 } (by simp; omega)
      have hdrop : st.itArray.get ⟨st.itIndex, hlt⟩ :: List.drop (st.itIndex + 1) st.itArray
          = List.drop st.itIndex st.itArray := by
        rw [List.drop_eq_getElem_cons hlt]
        simp
      have hidx : st.itIndex + 1 + fuel = st.itIndex + (fuel + 1) := by omega
      simp only [drainAux, hnext, hrec]
      simp [hdrop, hidx]

theorem drain_start_spec (st : ContextStore) :
    (st.iterStart).drain =
      (st.contexts.map Prod.snd,
        { st with itIndex := (st.contexts.map Prod.snd).length,
                  itArray := st.contexts.map Prod.snd }) := by
  unfold ContextStore.drain
  rw [drainAux_spec]
  · simp [ContextStore.iterStart]
  · simp [ContextStore.iterStart]

/-! ### Emission lemmas -/

theorem qualifyFold_nil (s : String) (h : List ContextRec) : qualifyFold s [] h = h := rfl

theorem qualifyFold_cons (s : String) (a : Ref) (refs : List Ref) (h : List ContextRec) :
    qualifyFold s (a :: refs) h = qualifyFold s refs (heapMod h a (qualify s)) := rfl

theorem length_qualifyFold (s : String) (refs : List Ref) (h : List ContextRec) :
    (qualifyFold s refs h).length = h.length := by
  induction refs generalizing h with
  | nil => rfl
  | cons a refs ih => rw [qualifyFold_cons, ih, length_heapMod]

theorem heapGet_qualifyFold_notMem (s : String) (refs : List Ref) (h : List ContextRec)
    (r : Ref) (hr : r ∉ refs) : heapGet (qualifyFold s refs h) r = heapGet h r := by
  induction refs generalizing h with
  | nil => rfl
  | cons a refs ih =>
      simp only [List.mem_cons] at hr
      push_neg at hr
      rw [qualifyFold_cons, ih _ hr.2, heapGet_heapMod_ne _ _ _ _ hr.1]

theorem heapGet_qualifyFold_mem (s : String) (refs : List Ref) (h : List ContextRec)
    (r : Ref) (hnd : refs.Nodup) (hmem : r ∈ refs) (hlt : r < h.length) :
    heapGet (qualifyFold s refs h) r = qualify s (heapGet h r) := by
  induction refs generalizing h with
  | nil => simp at hmem
  | cons a refs ih =>
      rw [qualifyFold_cons]
      rcases List.mem_cons.mp hmem with h1 | h1
      · subst h1
        rw [heapGet_qualifyFold_notMem _ _ _ _ (List.Nodup.not_mem hnd),
          heapGet_heapMod_self _ _ _ hlt]
      · have hne : r ≠ a := by
          intro e
          subst e
          exact List.Nodup.not_mem hnd h1
        rw [ih _ (List.Nodup.of_cons hnd) h1 (by rw [length_heapMod]; exact hlt),
          heapGet_heapMod_ne _ _ _ _ hne]

theorem emission_spec (st : ContextStore)
    (hb : ∀ p ∈ st.contexts, p.2 < st.heap.length)
    (hnd : (st.contexts.map Prod.snd).Nodup) :
    (st.get_output_contexts_array).1
        = st.contexts.map (fun p => qualify st.session (heapGet st.heap p.2)) ∧
    (st.get_output_contexts_array).2.contexts = st.contexts ∧
    (st.get_output_contexts_array).2.input_contexts = st.input_contexts ∧
    (st.get_output_contexts_array).2.session = st.session ∧
    (st.get_output_contexts_array).2.heap.length = st.heap.length ∧
    (∀ r ∈ st.contexts.map Prod.snd,
        heapGet (st.get_output_contexts_array).2.heap r
          = qualify st.session (heapGet st.heap r)) ∧
    (∀ r, r ∉ st.contexts.map Prod.snd →
        heapGet (st.get_output_contexts_array).2.heap r = heapGet st.heap r) := by
  have hq : ∀ r ∈ st.contexts.map Prod.snd,
      heapGet (qualifyFold st.session (st.contexts.map Prod.snd) st.heap) r
        = qualify st.session (heapGet st.heap r) := by
    intro r hr
    have hrlt : r < st.heap.length := by
      rcases List.mem_map.mp hr with ⟨p, hp, he⟩
      subst he
      exact hb p hp
    exact heapGet_qualifyFold_mem _ _ _ _ hnd hr hrlt
  refine ⟨?_, ?_, ?_, ?_, ?_, ?_, ?_⟩
  · show ((st.iterStart).drain.1).map
        (heapGet (qualifyFold st.session (st.iterStart).drain.1 (st.iterStart).drain.2.heap))
      = st.contexts.map (fun p => qualify st.session (heapGet st.heap p.2))
    rw [drain_start_spec]
    simp only [List.map_map]
    refine List.map_congr_left ?_
    intro p hp
    simp only [Function.comp]
    exact hq p.2 (List.mem_map_of_mem Prod.snd hp)
  · show (st.iterStart).drain.2.contexts = st.contexts
    rw [drain_start_spec]
  · show (st.iterStart).drain.2.input_contexts = st.input_contexts
    rw [drain_start_spec]
  · show (st.iterStart).drain.2.session = st.session
    rw [drain_start_spec]
  · show (qualifyFold st.session (st.iterStart).drain.1 (st.iterStart).drain.2.heap).length
      = st.heap.length
    rw [drain_start_spec, length_qualifyFold]
  · intro r hr
    show heapGet (qualifyFold st.session (st.iterStart).drain.1 (st.iterStart).drain.2.heap) r
      = qualify st.session (heapGet st.heap r)
    rw [drain_start_spec]
    exact hq r hr
  · intro r hr
    show heapGet (qualifyFold st.session (st.iterStart).drain.1 (st.iterStart).drain.2.heap) r
      = heapGet st.heap r
    rw [drain_start_spec]
    exact heapGet_qualifyFold_notMem _ _ _ _ hr

/-! ### Construction lemmas -/

theorem procAux_cons (c : ContextRec) (rest : List ContextRec) (i : Nat)
    (acc : List (String × Ref)) :
    procAux (c :: rest) i acc = procAux rest (i + 1) (assocSet acc (shortName c.name) i) := rfl

theorem mem_procAux (rest : List ContextRec) (i : Nat) (acc : List (String × Ref))
    (p : String × Ref) (h : p ∈ procAux rest i acc) :
    p ∈ acc ∨ ∃ j, j < rest.length ∧ p = (shortName ((rest.getD j blankRec).name), i + j) := by
  induction rest generalizing i acc with
  | nil => exact Or.inl h
  | cons c rest ih =>
      rw [procAux_cons] at h
      rcases ih (i + 1) _ h with h1 | ⟨j, hj, he⟩
      · rcases mem_assocSet _ _ _ _ h1 with h2 | h2
        · right
          refine ⟨0, by simp, ?_⟩
          simpa using h2
        · exact Or.inl h2
      · right
        refine ⟨j + 1, by simp; omega, ?_⟩
        rw [he]
        simp only [List.getD_cons_succ, Prod.mk.injEq]
        refine ⟨by trivial, by omega⟩

theorem procAux_no_touch (rest : List ContextRec) (i : Nat) (acc : List (String × Ref))
    (k : String) (h : ∀ c ∈ rest, shortName c.name ≠ k) :
    assocGet (procAux rest i acc) k = assocGet acc k := by
  induction rest generalizing i acc with
  | nil => rfl
  | cons c rest ih =>
      rw [procAux_cons, ih (i + 1) _ (fun c hc => h c (List.mem_cons_of_mem _ hc))]
      exact assocGet_set_ne _ _ _ _ (Ne.symm (h c (List.mem_cons_self _ _)))

theorem procAux_append (xs ys : List ContextRec) (i : Nat) (acc : List (String × Ref)) :
    procAux (xs ++ ys) i acc = procAux ys (i + xs.length) (procAux xs i acc) := by
  induction xs generalizing i acc with
  | nil => simp [procAux]
  | cons c xs ih =>
      rw [List.cons_append, procAux_cons, procAux_cons, ih]
      have : i + 1 + xs.length = i + (xs.length + 1) := by omega
      rw [this]
      rfl

theorem vals_mem_assocSet {α : Type} (l : List (String × α)) (k : String) (v : α)
    (w : α) (h : w ∈ (assocSet l k v).map Prod.snd) : w = v ∨ w ∈ l.map Prod.snd := by
  rcases List.mem_map.mp h with ⟨p, hp, he⟩
  subst he
  rcases mem_assocSet _ _ _ _ hp with h1 | h1
  · rw [h1]
    exact Or.inl rfl
  · exact Or.inr (List.mem_map_of_mem Prod.snd h1)

theorem keys_nodup_assocSet {α : Type} (l : List (String × α)) (k : String) (v : α)
    (h : (l.map Prod.fst).Nodup) : ((assocSet l k v).map Prod.fst).Nodup := by
  by_cases hk : k ∈ l.map Prod.fst
  · rw [keys_assocSet_of_mem _ _ _ hk]
    exact h
  · rw [assocSet_of_notMem _ _ _ hk, List.map_append]
    simp [List.nodup_append, h, hk]

theorem vals_nodup_assocSet (l : List (String × Ref)) (k : String) (i : Ref)
    (hv : (l.map Prod.snd).Nodup) (hb : ∀ p ∈ l, p.2 < i) :
    ((assocSet l k i).map Prod.snd).Nodup := by
  induction l with
  | nil => simp [assocSet]
  | cons q rest ih =>
      obtain ⟨qk, qv⟩ := q
      simp only [List.map_cons, List.nodup_cons] at hv
      by_cases hq : qk = k
      · simp only [assocSet, if_pos hq, List.map_cons, List.nodup_cons]
        refine ⟨?_, hv.2⟩
        intro hmem
        rcases List.mem_map.mp hmem with ⟨p, hp, he⟩
        have hlt := hb p (List.mem_cons_of_mem _ hp)
        rw [he] at hlt
        exact lt_irrefl i hlt
      · simp only [assocSet, if_neg hq, List.map_cons, List.nodup_cons]
        refine ⟨?_, ih hv.2 (fun p hp => hb p (List.mem_cons_of_mem _ hp))⟩
        intro hmem
        rcases vals_mem_assocSet _ _ _ _ hmem with he | hmem2
        · have hlt : qv < i := hb (qk, qv) (List.mem_cons_self _ _)
          exact absurd he (Nat.ne_of_lt hlt)
        · exact hv.1 hmem2

theorem procAux_nodup (rest : List ContextRec) (i : Nat) (acc : List (String × Ref))
    (hk : (acc.map Prod.fst).Nodup) (hv : (acc.map Prod.snd).Nodup)
    (hb : ∀ p ∈ acc, p.2 < i) :
    ((procAux rest i acc).map Prod.fst).Nodup ∧ ((procAux rest i acc).map Prod.snd).Nodup := by
  induction rest generalizing i acc with
  | nil => exact ⟨hk, hv⟩
  | cons c rest ih =>
      rw [procAux_cons]
      refine ih (i + 1) _ (keys_nodup_assocSet _ _ _ hk) (vals_nodup_assocSet _ _ _ hv hb) ?_
      intro p hp
      rcases mem_assocSet _ _ _ _ hp with h1 | h1
      · rw [h1]
        show i < i + 1
        omega
      · exact Nat.lt_succ_of_lt (hb p h1)

theorem keys_procAux (rest : List ContextRec) (i : Nat) (acc : List (String × Ref))
    (hdisj : ∀ c ∈ rest, shortName c.name ∉ acc.map Prod.fst)
    (hnd : (rest.map (fun c => shortName c.name)).Nodup) :
    (procAux rest i acc).map Prod.fst
      = acc.map Prod.fst ++ rest.map (fun c => shortName c.name) := by
  induction rest generalizing i acc with
  | nil => simp [procAux]
  | cons c rest ih =>
      rw [procAux_cons]
      simp only [List.map_cons, List.nodup_cons] at hnd
      have hfresh : shortName c.name ∉ acc.map Prod.fst :=
        hdisj c (List.mem_cons_self _ _)
      have hkeys : (assocSet acc (shortName c.name) i).map Prod.fst
          = acc.map Prod.fst ++ [shortName c.name] := by
        rw [assocSet_of_notMem _ _ _ hfresh]
        simp
      rw [ih (i + 1) _ ?_ hnd.2, hkeys]
      · simp
      · intro c' hc'
        rw [hkeys]
        simp only [List.mem_append, List.mem_singleton]
        push_neg
        refine ⟨hdisj c' (List.mem_cons_of_mem _ hc'), ?_⟩
        intro he
        exact hnd.1 (he ▸ List.mem_map_of_mem (fun c => shortName c.name) hc')

theorem WF_build (input : List ContextRec) (session : String) :
    WF (ContextStore.build input session) := by
  have hnodup := procAux_nodup input 0 [] (by simp) (by simp) (by simp)
  refine ⟨?_, hnodup.1, hnodup.2, ?_⟩
  · intro p hp
    rcases mem_procAux _ _ _ _ hp with h | ⟨j, hj, he⟩
    · simp at h
    · rw [he]
      simpa [ContextStore.build] using hj
  · intro p hp
    exact hp

theorem canonNames_build (input : List ContextRec) (session : String) :
    canonNames (ContextStore.build input session) := by
  intro p hp
  rcases mem_procAux _ _ _ _ hp with h | ⟨j, hj, he⟩
  · simp at h
  · rw [he]
    show (heapGet (input.map (fun c => { c with name := shortName c.name })) (0 + j)).name = _
    have h0 : (0 : Nat) + j = j := by omega
    rw [h0, heapGet_map _ _ j hj, List.getD_eq_getElem _ _ hj]

theorem keys_build (input : List ContextRec) (session : String)
    (hnd : (input.map (fun c => shortName c.name)).Nodup) :
    (ContextStore.build input session).contexts.map Prod.fst
      = input.map (fun c => shortName c.name) := by
  show (procAux input 0 []).map Prod.fst = _
  rw [keys_procAux input 0 [] (by simp) hnd]
  simp

/-! ### Lemmas about `set` -/

theorem set_nonstr (st : ContextStore) (name : PyName) (ls : Option Int) (ps : Option Params)
    (h : ∀ s, name ≠ PyName.str s) :
    st.set name ls ps = (some "name argument must be a string", st) := by
  cases name with
  | str s => exact absurd rfl (h s)
  | intVal n => rfl
  | noneVal => rfl
  | boolVal b => rfl

theorem err_set_str (st : ContextStore) (n : String) (ls : Option Int) (ps : Option Params) :
    (st.set (PyName.str n) ls ps).1 = none := by
  cases h : assocGet st.contexts n <;> cases ls <;> cases ps <;>
    simp [ContextStore.set, h]

theorem contexts_set_existing (st : ContextStore) (n : String) (r : Ref)
    (ls : Option Int) (ps : Option Params) (h : assocGet st.contexts n = some r) :
    ((st.set (PyName.str n) ls ps).2).contexts = st.contexts := by
  cases ls <;> cases ps <;> simp [ContextStore.set, h]

theorem contexts_set_fresh (st : ContextStore) (n : String)
    (ls : Option Int) (ps : Option Params) (h : assocGet st.contexts n = none) :
    ((st.set (PyName.str n) ls ps).2).contexts
      = assocSet st.contexts n st.heap.length := by
  cases ls <;> cases ps <;> simp [ContextStore.set, h]

theorem input_contexts_set (st : ContextStore) (name : PyName)
    (ls : Option Int) (ps : Option Params) :
    ((st.set name ls ps).2).input_contexts = st.input_contexts := by
  cases name with
  | str n =>
      cases h : assocGet st.contexts n <;> cases ls <;> cases ps <;>
        simp [ContextStore.set, h]
  | intVal n => rfl
  | noneVal => rfl
  | boolVal b => rfl

theorem session_set (st : ContextStore) (name : PyName)
    (ls : Option Int) (ps : Option Params) :
    ((st.set name ls ps).2).session = st.session := by
  cases name with
  | str n =>
      cases h : assocGet st.contexts n <;> cases ls <;> cases ps <;>
        simp [ContextStore.set, h]
  | intVal n => rfl
  | noneVal => rfl
  | boolVal b => rfl

theorem heap_length_set_existing (st : ContextStore) (n : String) (r : Ref)
    (ls : Option Int) (ps : Option Params) (h : assocGet st.contexts n = some r) :
    ((st.set (PyName.str n) ls ps).2).heap.length = st.heap.length := by
  cases ls <;> cases ps <;> simp [ContextStore.set, h, length_heapMod]

theorem heap_length_set_fresh (st : ContextStore) (n : String)
    (ls : Option Int) (ps : Option Params) (h : assocGet st.contexts n = none) :
    ((st.set (PyName.str n) ls ps).2).heap.length = st.heap.length + 1 := by
  cases ls <;> cases ps <;> simp [ContextStore.set, h, length_heapMod]

theorem heapGet_set_existing_self (st : ContextStore) (n : String) (r : Ref)
    (ls : Option Int) (ps : Option Params) (h : assocGet st.contexts n = some r)
    (hr : r < st.heap.length) :
    heapGet ((st.set (PyName.str n) ls ps).2).heap r
      = { heapGet st.heap r with
            lifespanCount := ls.elim (heapGet st.heap r).lifespanCount some,
            parameters := ps.elim (heapGet st.heap r).parameters some } := by
  cases ls <;> cases ps <;>
    simp [ContextStore.set, h, Option.elim, heapGet_heapMod_self, length_heapMod, hr]

theorem heapGet_set_fresh_new (st : ContextStore) (n : String)
    (ls : Option Int) (ps : Option Params) (h : assocGet st.contexts n = none) :
    heapGet ((st.set (PyName.str n) ls ps).2).heap st.heap.length
      = { name := n, lifespanCount := ls, parameters := ps } := by
  have hlen : st.heap.length < (st.heap ++ [({ name := n, lifespanCount := none, parameters := none } : ContextRec)]).length := by
    simp
  cases ls <;> cases ps <;>
    simp [ContextStore.set, h, heapGet_heapMod_self, length_heapMod, hlen, heapGet_append_len]

theorem heapGet_set_existing_frame (st : ContextStore) (n : String) (r r' : Ref)
    (ls : Option Int) (ps : Option Params) (h : assocGet st.contexts n = some r)
    (hne : r' ≠ r) :
    heapGet ((st.set (PyName.str n) ls ps).2).heap r' = heapGet st.heap r' := by
  cases ls <;> cases ps <;>
    simp [ContextStore.set, h, heapGet_heapMod_ne, hne]

theorem heapGet_set_fresh_frame (st : ContextStore) (n : String) (r' : Ref)
    (ls : Option Int) (ps : Option Params) (h : assocGet st.contexts n = none)
    (hr' : r' < st.heap.length) :
    heapGet ((st.set (PyName.str n) ls ps).2).heap r' = heapGet st.heap r' := by
  have hne : r' ≠ st.heap.length := Nat.ne_of_lt hr'
  cases ls <;> cases ps <;>
    simp [ContextStore.set, h, heapGet_heapMod_ne, hne, heapGet_append_lt, hr']

theorem get_set_existing (st : ContextStore) (n : String) (r : Ref)
    (ls : Option Int) (ps : Option Params) (h : assocGet st.contexts n = some r)
    (hr : r < st.heap.length) :
    ((st.set (PyName.str n) ls ps).2).get n
      = some { heapGet st.heap r with
                 lifespanCount := ls.elim (heapGet st.heap r).lifespanCount some,
                 parameters := ps.elim (heapGet st.heap r).parameters some } := by
  unfold ContextStore.get
  rw [contexts_set_existing _ _ _ _ _ h, h, Option.map_some',
    heapGet_set_existing_self _ _ _ _ _ h hr]

theorem get_set_fresh (st : ContextStore) (n : String)
    (ls : Option Int) (ps : Option Params) (h : assocGet st.contexts n = none) :
    ((st.set (PyName.str n) ls ps).2).get n
      = some { name := n, lifespanCount := ls, parameters := ps } := by
  unfold ContextStore.get
  rw [contexts_set_fresh _ _ _ _ h, assocGet_set_self, Option.map_some',
    heapGet_set_fresh_new _ _ _ _ h]

theorem WF_set (st : ContextStore) (name : PyName) (ls : Option Int) (ps : Option Params)
    (h : WF st) : WF ((st.set name ls ps).2) := by
  obtain ⟨hb, hk, hv, hin⟩ := h
  cases name with
  | intVal m => exact ⟨hb, hk, hv, hin⟩
  | noneVal => exact ⟨hb, hk, hv, hin⟩
  | boolVal b => exact ⟨hb, hk, hv, hin⟩
  | str n =>
      cases hg : assocGet st.contexts n with
      | some r =>
          refine ⟨?_, ?_, ?_, ?_⟩
          · intro p hp
            rw [contexts_set_existing _ _ _ _ _ hg] at hp
            rw [heap_length_set_existing _ _ _ _ _ hg]
            exact hb p hp
          · rw [contexts_set_existing _ _ _ _ _ hg]
            exact hk
          · rw [contexts_set_existing _ _ _ _ _ hg]
            exact hv
          · intro p hp
            rw [input_contexts_set] at hp
            rw [contexts_set_existing _ _ _ _ _ hg]
            exact hin p hp
      | none =>
          have hkeys : n ∉ st.contexts.map Prod.fst := (assocGet_eq_none_iff _ _).mp hg
          have hctx : ((st.set (PyName.str n) ls ps).2).contexts
              = st.contexts ++ [(n, st.heap.length)] := by
            rw [contexts_set_fresh _ _ _ _ hg, assocSet_of_notMem _ _ _ hkeys]
          refine ⟨?_, ?_, ?_, ?_⟩
          · intro p hp
            rw [hctx] at hp
            rw [heap_length_set_fresh _ _ _ _ hg]
            rcases List.mem_append.mp hp with hp | hp
            · exact Nat.lt_succ_of_lt (hb p hp)
            · rw [List.mem_singleton.mp hp]
              show st.heap.length < st.heap.length + 1
              omega
          · rw [hctx, List.map_append]
            simp [List.nodup_append, hk, hkeys]
          · rw [hctx, List.map_append]
            simp only [List.map_cons, List.map_nil, List.nodup_append, hv, true_and]
            refine ⟨List.nodup_singleton _, ?_⟩
            intro w hw
            simp only [List.mem_singleton]
            rcases List.mem_map.mp hw with ⟨p, hp, he⟩
            have := hb p hp
            intro hcon
            rw [hcon] at he
            rw [he] at this
            exact lt_irrefl _ this
          · intro p hp
            rw [input_contexts_set] at hp
            rw [hctx]
            exact List.mem_append_left _ (hin p hp)

theorem canonNames_set (st : ContextStore) (name : PyName) (ls : Option Int)
    (ps : Option Params) (hwf : WF st) (hc : canonNames st) :
    canonNames ((st.set name ls ps).2) := by
  obtain ⟨hb, hk, hv, hin⟩ := hwf
  cases name with
  | intVal m => exact hc
  | noneVal => exact hc
  | boolVal b => exact hc
  | str n =>
      cases hg : assocGet st.contexts n with
      | some r =>
          intro p hp
          rw [contexts_set_existing _ _ _ _ _ hg] at hp
          by_cases hpr : p.2 = r
          · have hnr : (n, r) ∈ st.contexts := assocGet_mem _ _ _ hg
            have hpn : p = (n, r) :=
              List.inj_on_of_nodup_map hv hp hnr (by simpa using hpr)
            rw [hpn]
            show (heapGet ((st.set (PyName.str n) ls ps).2).heap r).name = n
            rw [heapGet_set_existing_self _ _ _ _ _ hg (hb _ hnr)]
            simpa using hc (n, r) hnr
          · rw [heapGet_set_existing_frame _ _ _ _ _ _ hg hpr]
            exact hc p hp
      | none =>
          intro p hp
          rw [contexts_set_fresh _ _ _ _ hg] at hp
          rcases mem_assocSet _ _ _ _ hp with hp1 | hp1
          · rw [hp1]
            show (heapGet ((st.set (PyName.str n) ls ps).2).heap st.heap.length).name = n
            rw [heapGet_set_fresh_new _ _ _ _ hg]
          · rw [heapGet_set_fresh_frame _ _ _ _ _ hg (hb p hp1)]
            exact hc p hp1

theorem get_build_last (input : List ContextRec) (session : String) (i : Nat)
    (hi : i < input.length)
    (hlater : ∀ c ∈ input.drop (i + 1),
        shortName c.name ≠ shortName (input[i].name)) :
    (ContextStore.build input session).get (shortName (input[i].name))
      = some { input[i] with name := shortName (input[i].name) } := by
  have hsplit : input = input.take i ++ (input[i] :: input.drop (i + 1)) := by
    rw [← List.drop_eq_getElem_cons hi, List.take_append_drop]
  have hlen : (input.take i).length = i := by
    rw [List.length_take]
    omega
  have hassoc : ∀ k, shortName (input[i].name) = k →
      assocGet (procAux input 0 []) k = some i := by
    intro k hk
    have hlater' : ∀ c ∈ input.drop (i + 1), shortName c.name ≠ k := by
      intro c hc
      rw [← hk]
      exact hlater c hc
    rw [hsplit, procAux_append, procAux_cons, hlen,
      procAux_no_touch _ _ _ _ hlater', Nat.zero_add, hk, assocGet_set_self]
  show ((assocGet (procAux input 0 []) (shortName (input[i].name))).map
    (heapGet (input.map (fun c => { c with name := shortName c.name })))) = _
  rw [hassoc _ rfl, Option.map_some', heapGet_map _ _ i hi]

/-! ### Further shared lemmas -/

theorem assocGet_of_mem_nodup {α : Type} (l : List (String × α)) (k : String) (v : α)
    (hk : (l.map Prod.fst).Nodup) (h : (k, v) ∈ l) : assocGet l k = some v := by
  induction l with
  | nil => simp at h
  | cons q rest ih =>
      obtain ⟨qk, qv⟩ := q
      simp only [List.map_cons, List.nodup_cons] at hk
      rcases List.mem_cons.mp h with h1 | h1
      · cases h1
        simp [assocGet]
      · have hne : qk ≠ k := by
          intro e
          subst e
          exact hk.1 (List.mem_map_of_mem Prod.fst h1)
        simp [assocGet, hne, ih hk.2 h1]

theorem emission_names (st : ContextStore) (hwf : WF st) (hc : canonNames st) :
    ((st.get_output_contexts_array).1.map ContextRec.name)
      = st.contexts.map (fun p => st.session ++ "/contexts/" ++ p.1) := by
  obtain ⟨hb, hk, hv, hin⟩ := hwf
  rw [(emission_spec st hb hv).1, List.map_map]
  refine List.map_congr_left ?_
  intro p hp
  show st.session ++ "/contexts/" ++ (heapGet st.heap p.2).name
    = st.session ++ "/contexts/" ++ p.1
  rw [hc p hp]

/-! ### The claims -/

/-- C1: for every well-formed store whose records carry their canonical
names, the record emitted for the record stored under canonical short name
`n` has `name` equal to `session ++ "/contexts/" ++ n` (the emitted list is,
entry by entry, the stored entries with the key re-qualified). -/
theorem emitted_name_is_session_qualified (st : ContextStore)
    (hwf : WF st) (hc : canonNames st) :
    ((st.get_output_contexts_array).1.map ContextRec.name)
      = st.contexts.map (fun p => st.session ++ "/contexts/" ++ p.1) :=
  emission_names st hwf hc

/-- Witness for C1: the session `"projects/p/agent/sessions/s1"` with a
context named `"awaiting-confirmation"` emits the round-tripped name. -/
theorem emitted_name_is_session_qualified_witness :
    WF ex1 ∧ canonNames ex1 ∧
    ((ex1.get_output_contexts_array).1.map ContextRec.name)
      = ex1.contexts.map (fun p => ex1.session ++ "/contexts/" ++ p.1) ∧
    ((ex1.get_output_contexts_array).1.map ContextRec.name)
      = ["projects/p/agent/sessions/s1/contexts/awaiting-confirmation"] :=
  ⟨by decide, by decide,
    emitted_name_is_session_qualified ex1 (by decide) (by decide), by decide⟩

/-- C2 counterexample: with two inbound records `a/x` and `b/x` both
normalizing to the short name `x`, `get "x"` does not return the first
record (it returns the later one, which overwrote it). -/
theorem get_shadowed_short_name_cex :
    shortName "a/x" = "x" ∧
    ex2.get "x" ≠ some { name := "x", lifespanCount := some 1, parameters := none } ∧
    ex2.get "x" = some { name := "x", lifespanCount := some 2, parameters := none } :=
  ⟨by decide, by decide, by decide⟩

/-- C2 (amended): every inbound record is keyed under the final path segment
of its name, and `get` with that short name returns the (name-normalized)
record, provided no later inbound record normalizes to the same short name
(otherwise the later record has overwritten it). -/
theorem inbound_keyed_under_final_segment (input : List ContextRec) (session : String)
    (i : Nat) (hi : i < input.length)
    (hlater : ∀ c ∈ input.drop (i + 1),
        shortName c.name ≠ shortName (input[i].name)) :
    (ContextStore.build input session).get (shortName (input[i].name))
      = some { input[i] with name := shortName (input[i].name) } :=
  get_build_last input session i hi hlater

/-- Witness for C2 (amended), at the last record of `ex2input`. -/
theorem inbound_keyed_under_final_segment_witness :
    (1 < ex2input.length) ∧
    (ContextStore.build ex2input "s").get (shortName ((ex2input.get ⟨1, by decide⟩).name))
      = some { ex2input.get ⟨1, by decide⟩ with
                 name := shortName ((ex2input.get ⟨1, by decide⟩).name) } :=
  ⟨by decide, inbound_keyed_under_final_segment ex2input "s" 1 (by decide) (by decide)⟩

/-- C4: `set` with a non-string name fails synchronously with the
`InvalidArgument` error (`TypeError: name argument must be a string`) and
returns the store completely unchanged. -/
theorem set_nonstring_invalid_argument (st : ContextStore) (name : PyName)
    (ls : Option Int) (ps : Option Params) (h : ∀ s, name ≠ PyName.str s) :
    st.set name ls ps = (some "name argument must be a string", st) :=
  set_nonstr st name ls ps h

/-- C3: `delete(n)` is literally `set(n, lifespan_count=0)`: it removes no
key from the mapping, leaves a record under `n` whose `lifespanCount` is 0,
and when `n` was absent it creates a fresh, already-expired record
`{name: n, lifespanCount: 0}` with no parameters. -/
theorem delete_equals_set_lifespan_zero (st : ContextStore) (n : String) (hwf : WF st) :
    (st.delete (PyName.str n) = st.set (PyName.str n) (some 0) none) ∧
    (∀ k ∈ st.contexts.map Prod.fst,
        k ∈ ((st.delete (PyName.str n)).2).contexts.map Prod.fst) ∧
    (∃ c, ((st.delete (PyName.str n)).2).get n = some c ∧ c.lifespanCount = some 0) ∧
    (st.get n = none →
        ((st.delete (PyName.str n)).2).get n
          = some { name := n, lifespanCount := some 0, parameters := none }) := by
  obtain ⟨hb, hk, hv, hin⟩ := hwf
  refine ⟨rfl, ?_, ?_, ?_⟩
  · intro k hkmem
    show k ∈ ((st.set (PyName.str n) (some 0) none).2).contexts.map Prod.fst
    cases hg : assocGet st.contexts n with
    | some r =>
        rw [contexts_set_existing _ _ _ _ _ hg]
        exact hkmem
    | none =>
        have hkeys : n ∉ st.contexts.map Prod.fst := (assocGet_eq_none_iff _ _).mp hg
        rw [contexts_set_fresh _ _ _ _ hg, assocSet_of_notMem _ _ _ hkeys, List.map_append]
        exact List.mem_append_left _ hkmem
  · show ∃ c, ((st.set (PyName.str n) (some 0) none).2).get n = some c
        ∧ c.lifespanCount = some 0
    cases hg : assocGet st.contexts n with
    | some r =>
        have hr : r < st.heap.length := hb _ (assocGet_mem _ _ _ hg)
        exact ⟨_, get_set_existing _ _ _ _ _ hg hr, rfl⟩
    | none => exact ⟨_, get_set_fresh _ _ _ _ hg, rfl⟩
  · intro hget
    show ((st.set (PyName.str n) (some 0) none).2).get n
        = some { name := n, lifespanCount := some 0, parameters := none }
    cases hg : assocGet st.contexts n with
    | some r =>
        rw [ContextStore.get, hg] at hget
        simp at hget
    | none => exact get_set_fresh _ _ _ _ hg

/-- Witness for C3, at `ex7` with the previously absent name `"zzz"`. -/
theorem delete_equals_set_lifespan_zero_witness :
    WF ex7 ∧
    ((ex7.delete (PyName.str "zzz") = ex7.set (PyName.str "zzz") (some 0) none) ∧
      (∀ k ∈ ex7.contexts.map Prod.fst,
          k ∈ ((ex7.delete (PyName.str "zzz")).2).contexts.map Prod.fst) ∧
      (∃ c, ((ex7.delete (PyName.str "zzz")).2).get "zzz" = some c
          ∧ c.lifespanCount = some 0) ∧
      (ex7.get "zzz" = none →
          ((ex7.delete (PyName.str "zzz")).2).get "zzz"
            = some { name := "zzz", lifespanCount := some 0, parameters := none })) :=
  ⟨by decide, delete_equals_set_lifespan_zero ex7 "zzz" (by decide)⟩

/-- C5: on an existing record, `set` with an omitted argument leaves the
corresponding field untouched: omitting `lifespan_count` preserves the old
lifespan while `parameters` is replaced wholesale; omitting `parameters`
preserves the old parameters while the lifespan is overwritten; omitting
both leaves the record exactly as it was. -/
theorem set_omitted_argument_frame (st : ContextStore) (n : String) (c : ContextRec)
    (l : Int) (p : Params) (hwf : WF st) (hget : st.get n = some c) :
    ((st.set (PyName.str n) none (some p)).2).get n
        = some { c with parameters := some p } ∧
    ((st.set (PyName.str n) (some l) none).2).get n
        = some { c with lifespanCount := some l } ∧
    ((st.set (PyName.str n) none none).2).get n = some c := by
  obtain ⟨hb, hk, hv, hin⟩ := hwf
  cases hg : assocGet st.contexts n with
  | none =>
      rw [ContextStore.get, hg] at hget
      simp at hget
  | some r =>
      have hr : r < st.heap.length := hb _ (assocGet_mem _ _ _ hg)
      rw [ContextStore.get, hg, Option.map_some'] at hget
      have hc2 : heapGet st.heap r = c := Option.some.inj hget
      refine ⟨?_, ?_, ?_⟩ <;>
        (rw [get_set_existing _ _ _ _ _ hg hr, hc2]; rfl)

/-- Witness for C5, at `ex3` (record `x` with lifespan 7 and parameters). -/
theorem set_omitted_argument_frame_witness :
    WF ex3 ∧
    ex3.get "x" = some { name := "x", lifespanCount := some 7,
                         parameters := some [("a", "1")] } ∧
    (((ex3.set (PyName.str "x") none (some [("b", "2")])).2).get "x"
        = some { name := "x", lifespanCount := some 7,
                 parameters := some [("b", "2")] } ∧
      ((ex3.set (PyName.str "x") (some 5) none).2).get "x"
        = some { name := "x", lifespanCount := some 5,
                 parameters := some [("a", "1")] } ∧
      ((ex3.set (PyName.str "x") none none).2).get "x"
        = some { name := "x", lifespanCount := some 7,
                 parameters := some [("a", "1")] }) :=
  ⟨by decide, by decide,
    set_omitted_argument_frame ex3 "x"
      { name := "x", lifespanCount := some 7, parameters := some [("a", "1")] }
      5 [("b", "2")] (by decide) (by decide)⟩

/-- C10: as long as emission has not rewritten names, every key of the live
mapping equals the `name` field of the record it maps to; the invariant
holds after construction and is preserved by `set` and `delete`, and `get n`
returns a record named `n`. -/
theorem canonical_name_invariant :
    (∀ (input : List ContextRec) (session : String),
        canonNames (ContextStore.build input session)) ∧
    (∀ (st : ContextStore) (name : PyName) (ls : Option Int) (ps : Option Params),
        WF st → canonNames st → canonNames ((st.set name ls ps).2)) ∧
    (∀ (st : ContextStore) (name : PyName),
        WF st → canonNames st → canonNames ((st.delete name).2)) ∧
    (∀ (st : ContextStore) (n : String) (c : ContextRec),
        canonNames st → st.get n = some c → c.name = n) := by
  refine ⟨canonNames_build, canonNames_set, ?_, ?_⟩
  · intro st name h hc
    exact canonNames_set st name (some 0) none h hc
  · intro st n c hc hget
    cases hg : assocGet st.contexts n with
    | none =>
        rw [ContextStore.get, hg] at hget
        simp at hget
    | some r =>
        rw [ContextStore.get, hg, Option.map_some'] at hget
        rw [← Option.some.inj hget]
        exact hc (n, r) (assocGet_mem _ _ _ hg)

/-- Witness for C10: the invariant holds for `ex7` and survives a `set`
with a fresh name. -/
theorem canonical_name_invariant_witness :
    (WF ex7 ∧ canonNames ex7) ∧
    canonNames ((ex7.set (PyName.str "y") (some 1) none).2) :=
  ⟨⟨by decide, by decide⟩,
    canonical_name_invariant.2.1 ex7 (PyName.str "y") (some 1) none
      (by decide) (by decide)⟩

/-- Witness for C4: `set(123, ...)` fails and leaves `ex2` unchanged. -/
theorem set_nonstring_invalid_argument_witness :
    (∀ s, PyName.intVal 123 ≠ PyName.str s) ∧
    ex2.set (PyName.intVal 123) none none
      = (some "name argument must be a string", ex2) :=
  ⟨fun s => by simp,
    set_nonstring_invalid_argument ex2 (PyName.intVal 123) none none (fun s => by simp)⟩

/-- C6: emission lists all records in the mapping in insertion order — the
emitted names follow the mapping's key order; construction keys the inbound
snapshot in its original order; `set`/`delete` on a fresh name appends it at
the end, and `set` on an existing name leaves the key order unchanged. -/
theorem emission_insertion_order :
    (∀ st : ContextStore, WF st → canonNames st →
        ((st.get_output_contexts_array).1.map ContextRec.name)
          = st.contexts.map (fun p => st.session ++ "/contexts/" ++ p.1)) ∧
    (∀ (input : List ContextRec) (session : String),
        (input.map (fun c => shortName c.name)).Nodup →
        (ContextStore.build input session).contexts.map Prod.fst
          = input.map (fun c => shortName c.name)) ∧
    (∀ (st : ContextStore) (n : String) (ls : Option Int) (ps : Option Params),
        assocGet st.contexts n = none →
        ((st.set (PyName.str n) ls ps).2).contexts.map Prod.fst
          = st.contexts.map Prod.fst ++ [n]) ∧
    (∀ (st : ContextStore) (n : String) (r : Ref) (ls : Option Int) (ps : Option Params),
        assocGet st.contexts n = some r →
        ((st.set (PyName.str n) ls ps).2).contexts.map Prod.fst
          = st.contexts.map Prod.fst) ∧
    (∀ (st : ContextStore) (n : String),
        assocGet st.contexts n = none →
        ((st.delete (PyName.str n)).2).contexts.map Prod.fst
          = st.contexts.map Prod.fst ++ [n]) := by
  have hfresh : ∀ (st : ContextStore) (n : String) (ls : Option Int) (ps : Option Params),
      assocGet st.contexts n = none →
      ((st.set (PyName.str n) ls ps).2).contexts.map Prod.fst
        = st.contexts.map Prod.fst ++ [n] := by
    intro st n ls ps hg
    have hkeys : n ∉ st.contexts.map Prod.fst := (assocGet_eq_none_iff _ _).mp hg
    rw [contexts_set_fresh _ _ _ _ hg, assocSet_of_notMem _ _ _ hkeys, List.map_append]
    rfl
  refine ⟨fun st hwf hc => emission_names st hwf hc,
    fun input session hnd => keys_build input session hnd, hfresh, ?_, ?_⟩
  · intro st n r ls ps hg
    rw [contexts_set_existing _ _ _ _ _ hg]
  · intro st n hg
    exact hfresh st n (some 0) none hg

/-- Witness for C6: inbound `[A, B]` then `set("C", ...)` emits
`[A, B, C]` (with qualified names). -/
theorem emission_insertion_order_witness :
    (WF exABC ∧ canonNames exABC) ∧
    ((exABC.get_output_contexts_array).1.map ContextRec.name
        = exABC.contexts.map (fun p => exABC.session ++ "/contexts/" ++ p.1)) ∧
    ((exABC.get_output_contexts_array).1.map ContextRec.name
        = ["s/contexts/A", "s/contexts/B", "s/contexts/C"]) ∧
    (assocGet exAB.contexts "C" = none) ∧
    (((exAB.set (PyName.str "C") (some 5) none).2).contexts.map Prod.fst
        = exAB.contexts.map Prod.fst ++ ["C"]) :=
  ⟨⟨by decide, by decide⟩,
    emission_insertion_order.1 exABC (by decide) (by decide),
    by decide, by decide,
    emission_insertion_order.2.2.1 exAB "C" (some 5) none (by decide)⟩

/-- C7 counterexample: the snapshot is not read-only.  After
`set("x", lifespan_count=5)` on a store whose inbound snapshot held `x` with
lifespan 2, the snapshot itself shows lifespan 5: the live mapping and the
snapshot share the same record object. -/
theorem snapshot_write_through_cex :
    ex7.inputSnapshot
        = [("x", { name := "x", lifespanCount := some 2, parameters := none })] ∧
    ex7set.inputSnapshot
        = [("x", { name := "x", lifespanCount := some 5, parameters := none })] ∧
    ex7set.inputSnapshot ≠ ex7.inputSnapshot :=
  ⟨by decide, by decide, by decide⟩

/-- C7 (amended): the snapshot's key-to-object mapping is never changed by
`set`/`delete`, and `set`/`delete` on a name *not present in the snapshot*
leaves every snapshot value unchanged; `set`/`delete` on a snapshot name
writes through the shared record object (see the counterexample). -/
theorem snapshot_frame_for_nonsnapshot_names :
    (∀ (st : ContextStore) (name : PyName) (ls : Option Int) (ps : Option Params),
        ((st.set name ls ps).2).input_contexts = st.input_contexts) ∧
    (∀ (st : ContextStore) (n : String) (ls : Option Int) (ps : Option Params),
        WF st → assocGet st.input_contexts n = none →
        ((st.set (PyName.str n) ls ps).2).inputSnapshot = st.inputSnapshot) ∧
    (∀ (st : ContextStore) (n : String),
        WF st → assocGet st.input_contexts n = none →
        ((st.delete (PyName.str n)).2).inputSnapshot = st.inputSnapshot) := by
  have hmain : ∀ (st : ContextStore) (n : String) (ls : Option Int) (ps : Option Params),
      WF st → assocGet st.input_contexts n = none →
      ((st.set (PyName.str n) ls ps).2).inputSnapshot = st.inputSnapshot := by
    intro st n ls ps hwf hnin
    obtain ⟨hb, hk, hv, hin⟩ := hwf
    have hnkeys : n ∉ st.input_contexts.map Prod.fst :=
      (assocGet_eq_none_iff _ _).mp hnin
    unfold ContextStore.inputSnapshot
    rw [input_contexts_set]
    refine List.map_congr_left ?_
    intro p hp
    have hpc : p ∈ st.contexts := hin p hp
    have hplt : p.2 < st.heap.length := hb p hpc
    cases hg : assocGet st.contexts n with
    | none => rw [heapGet_set_fresh_frame _ _ _ _ _ hg hplt]
    | some r =>
        have hnr : (n, r) ∈ st.contexts := assocGet_mem _ _ _ hg
        have hpn : p.1 ≠ n := by
          intro e
          apply hnkeys
          rw [← e]
          exact List.mem_map_of_mem Prod.fst hp
        have hne : p.2 ≠ r := by
          intro e
          have hpe : p = (n, r) :=
            List.inj_on_of_nodup_map hv hpc hnr (by simpa using e)
          exact hpn (by rw [hpe])
        rw [heapGet_set_existing_frame _ _ _ _ _ _ hg hne]
  exact ⟨fun st name ls ps => input_contexts_set st name ls ps, hmain,
    fun st n h1 h2 => hmain st n (some 0) none h1 h2⟩

/-- Witness for C7 (amended): `set("y", ...)` on `ex7` (whose snapshot only
holds `x`) leaves the snapshot unchanged. -/
theorem snapshot_frame_for_nonsnapshot_names_witness :
    WF ex7 ∧ assocGet ex7.input_contexts "y" = none ∧
    ((ex7.set (PyName.str "y") (some 9) none).2).inputSnapshot = ex7.inputSnapshot :=
  ⟨by decide, by decide,
    snapshot_frame_for_nonsnapshot_names.2.1 ex7 "y" (some 9) none
      (by decide) (by decide)⟩

/-- C8 counterexample: iteration is not re-entrant.  On a store with records
`A` (object 0) and `B` (object 1), a full pass yields `[0, 1]`; but if after
the outer pass has yielded `0` an inner iteration is started (resetting the
shared cursor) and exhausted, resuming the outer pass immediately raises
`StopIteration` — the outer pass yielded only `[0]`, not the complete
sequence. -/
theorem nested_iteration_truncates_cex :
    ((exAB.iterStart).drain).1 = [0, 1] ∧
    ((exAB.iterStart).iterNext).1 = some 0 ∧
    (((((exAB.iterStart).iterNext).2).iterStart).drain).1 = [0, 1] ∧
    ((((((exAB.iterStart).iterNext).2).iterStart).drain).2).iterNext.1 = none :=
  ⟨by decide, by decide, by decide, by decide⟩

/-- C8 (amended): a (fresh) iteration pass yields the record objects of the
mapping, in canonical form, in insertion order; iterating does not consume
or clear the mapping or the heap, and repeating a completed pass yields the
same complete sequence; nested (re-entrant) iteration, however, shares the
single cursor and truncates the outer pass (see the counterexample). -/
theorem iteration_order_and_repeat_safety (st : ContextStore) (hc : canonNames st) :
    ((st.iterStart).drain).1 = st.contexts.map Prod.snd ∧
    (((st.iterStart).drain).1.map (fun r => (heapGet st.heap r).name))
        = st.contexts.map Prod.fst ∧
    ((st.iterStart).drain).2.contexts = st.contexts ∧
    ((st.iterStart).drain).2.heap = st.heap ∧
    ((((st.iterStart).drain).2).iterStart).drain.1 = ((st.iterStart).drain).1 := by
  refine ⟨?_, ?_, ?_, ?_, ?_⟩
  · rw [drain_start_spec]
  · rw [drain_start_spec, List.map_map]
    refine List.map_congr_left ?_
    intro p hp
    exact hc p hp
  · rw [drain_start_spec]
  · rw [drain_start_spec]
  · simp [drain_start_spec]

/-- Witness for C8 (amended), at `exAB`. -/
theorem iteration_order_and_repeat_safety_witness :
    canonNames exAB ∧
    (((exAB.iterStart).drain).1 = exAB.contexts.map Prod.snd ∧
      (((exAB.iterStart).drain).1.map (fun r => (heapGet exAB.heap r).name))
          = exAB.contexts.map Prod.fst ∧
      ((exAB.iterStart).drain).2.contexts = exAB.contexts ∧
      ((exAB.iterStart).drain).2.heap = exAB.heap ∧
      ((((exAB.iterStart).drain).2).iterStart).drain.1 = ((exAB.iterStart).drain).1) :=
  ⟨by decide, iteration_order_and_repeat_safety exAB (by decide)⟩

/-- C9: emission destructively rewrites the stored records' names: after one
emission the record still stored under the short name `n` carries the
fully-qualified name, and a second emission qualifies it a second time,
yielding a doubly-qualified name. -/
theorem emission_destructive_requalification (st : ContextStore) (n : String) (r : Ref)
    (hwf : WF st) (hc : canonNames st) (hmem : (n, r) ∈ st.contexts) :
    (assocGet ((st.get_output_contexts_array).2).contexts n = some r) ∧
    ((heapGet ((st.get_output_contexts_array).2).heap r).name
        = st.session ++ "/contexts/" ++ n) ∧
    ((heapGet (((st.get_output_contexts_array).2).get_output_contexts_array).2.heap r).name
        = st.session ++ "/contexts/" ++ (st.session ++ "/contexts/" ++ n)) ∧
    ((st.session ++ "/contexts/" ++ (st.session ++ "/contexts/" ++ n))
        ∈ (((st.get_output_contexts_array).2).get_output_contexts_array).1.map
            ContextRec.name) := by
  obtain ⟨hb, hk, hv, hin⟩ := hwf
  have es := emission_spec st hb hv
  have hctx1 : ((st.get_output_contexts_array).2).contexts = st.contexts := es.2.1
  have hsess1 : ((st.get_output_contexts_array).2).session = st.session := es.2.2.2.1
  have hlen1 : ((st.get_output_contexts_array).2).heap.length = st.heap.length :=
    es.2.2.2.2.1
  have hqual := es.2.2.2.2.2.1
  have hrmem : r ∈ st.contexts.map Prod.snd := List.mem_map_of_mem Prod.snd hmem
  have hb1 : ∀ p ∈ ((st.get_output_contexts_array).2).contexts,
      p.2 < ((st.get_output_contexts_array).2).heap.length := by
    intro p hp
    rw [hctx1] at hp
    rw [hlen1]
    exact hb p hp
  have hv1 : (((st.get_output_contexts_array).2).contexts.map Prod.snd).Nodup := by
    rw [hctx1]
    exact hv
  have es1 := emission_spec ((st.get_output_contexts_array).2) hb1 hv1
  have hrmem1 : r ∈ ((st.get_output_contexts_array).2).contexts.map Prod.snd := by
    rw [hctx1]
    exact hrmem
  have hdouble : (heapGet (((st.get_output_contexts_array).2).get_output_contexts_array).2.heap r).name
      = st.session ++ "/contexts/" ++ (st.session ++ "/contexts/" ++ n) := by
    rw [es1.2.2.2.2.2.1 r hrmem1, hsess1]
    show st.session ++ "/contexts/"
        ++ (heapGet ((st.get_output_contexts_array).2).heap r).name = _
    rw [hqual r hrmem]
    show st.session ++ "/contexts/"
        ++ (st.session ++ "/contexts/" ++ (heapGet st.heap r).name) = _
    rw [hc (n, r) hmem]
  refine ⟨?_, ?_, hdouble, ?_⟩
  · rw [hctx1]
    exact assocGet_of_mem_nodup _ _ _ hk hmem
  · rw [hqual r hrmem]
    show st.session ++ "/contexts/" ++ (heapGet st.heap r).name = _
    rw [hc (n, r) hmem]
  · have hmem1 : (n, r) ∈ ((st.get_output_contexts_array).2).contexts := by
      rw [hctx1]
      exact hmem
    have houtmem := List.mem_map_of_mem
      (fun p : String × Ref =>
        (qualify ((st.get_output_contexts_array).2).session
          (heapGet ((st.get_output_contexts_array).2).heap p.2)).name) hmem1
    rw [es1.1, List.map_map]
    have hval : (qualify ((st.get_output_contexts_array).2).session
        (heapGet ((st.get_output_contexts_array).2).heap r)).name
        = st.session ++ "/contexts/" ++ (st.session ++ "/contexts/" ++ n) := by
      show ((st.get_output_contexts_array).2).session ++ "/contexts/"
          ++ (heapGet ((st.get_output_contexts_array).2).heap r).name = _
      rw [hsess1, hqual r hrmem]
      show st.session ++ "/contexts/"
          ++ (st.session ++ "/contexts/" ++ (heapGet st.heap r).name) = _
      rw [hc (n, r) hmem]
    rw [← hval]
    exact houtmem

/-- Witness for C9, at `ex1`. -/
theorem emission_destructive_requalification_witness :
    (WF ex1 ∧ canonNames ex1 ∧ ("awaiting-confirmation", 0) ∈ ex1.contexts) ∧
    ((assocGet ((ex1.get_output_contexts_array).2).contexts "awaiting-confirmation"
        = some 0) ∧
      ((heapGet ((ex1.get_output_contexts_array).2).heap 0).name
          = ex1.session ++ "/contexts/" ++ "awaiting-confirmation") ∧
      ((heapGet (((ex1.get_output_contexts_array).2).get_output_contexts_array).2.heap 0).name
          = ex1.session ++ "/contexts/"
              ++ (ex1.session ++ "/contexts/" ++ "awaiting-confirmation")) ∧
      ((ex1.session ++ "/contexts/"
            ++ (ex1.session ++ "/contexts/" ++ "awaiting-confirmation"))
          ∈ (((ex1.get_output_contexts_array).2).get_output_contexts_array).1.map
              ContextRec.name)) :=
  ⟨⟨by decide, by decide, by decide⟩,
    emission_destructive_requalification ex1 "awaiting-confirmation" 0
      (by decide) (by decide) (by decide)⟩

end DF
